import Mathlib

set_option maxRecDepth 8000

/- Shallow embedding of src/app.py (a chat-platform meeting-scheduler bot).
   Python strings are modeled as List Char (one element per code point), so
   Python len comes out as List.length and slicing as List.take. -/

/-- Source: app.py line 22, `MAX_MESSAGE_LENGTH = 2000`. -/
def MAX_MESSAGE_LENGTH : Nat := 2000

/-- The characters of the mass-mention token "everyone" (tail of "@everyone"). -/
def psE : List Char := ['e', 'v', 'e', 'r', 'y', 'o', 'n', 'e']

/-- The raw mass-mention token "@everyone". -/
def patE : List Char := '@' :: psE

/-- The neutralized replacement: at-sign, zero-width space, "everyone". -/
def repE : List Char := '@' :: '\u200B' :: psE

/-- The characters of the mass-mention token "here" (tail of "@here"). -/
def psH : List Char := ['h', 'e', 'r', 'e']

/-- The raw mass-mention token "@here". -/
def patH : List Char := '@' :: psH

/-- The neutralized replacement: at-sign, zero-width space, "here". -/
def repH : List Char := '@' :: '\u200B' :: psH

/-- Python str.replace for a non-empty pattern `p :: ps`, written with an
    explicit fuel argument so that it is structurally recursive; the wrapper
    pyReplace below supplies fuel equal to the length of the string, which is
    always sufficient since each step consumes at least one character. The
    semantics are those of CPython: scan left to right, replace each
    non-overlapping occurrence, continue after the replaced segment. -/
def pyReplaceGo (p : Char) (ps rep : List Char) : Nat → List Char → List Char
  | 0, s => s
  | _ + 1, [] => []
  | fuel + 1, c :: cs =>
    if (p :: ps).isPrefixOf (c :: cs) then
      rep ++ pyReplaceGo p ps rep fuel (cs.drop ps.length)
    else
      c :: pyReplaceGo p ps rep fuel cs

/-- Python `s.replace(p :: ps, rep)` for a non-empty pattern. -/
def pyReplace (p : Char) (ps rep : List Char) (s : List Char) : List Char :=
  pyReplaceGo p ps rep s.length s

/-- Source: app.py line 136,
    `content.replace(@everyone-token, neutralized).replace(@here-token, neutralized)`. -/
def sanitize (content : List Char) : List Char :=
  pyReplace '@' psH repH (pyReplace '@' psE repE content)

/-- Python str.strip(): drop whitespace from both ends. -/
def pyStrip (s : List Char) : List Char :=
  ((s.dropWhile Char.isWhitespace).reverse.dropWhile Char.isWhitespace).reverse

/-- Python `s.rstrip(chr 10)`: drop trailing newline characters.
    Source: app.py line 139. -/
def rstripNewlines (s : List Char) : List Char :=
  (s.reverse.dropWhile (fun c => c == '\n')).reverse

/-- Boolean substring test: does `pat` occur contiguously inside the string? -/
def hasSubstr (pat : List Char) : List Char → Bool
  | [] => pat.isEmpty
  | c :: cs => pat.isPrefixOf (c :: cs) || hasSubstr pat cs

/-- A fetched chat message, as used by app.py lines 129-137: the author has a
    display name (possibly empty, modeling a falsy value) and an account name,
    and the message has text content. -/
structure Message where
  display_name : List Char
  name : List Char
  content : List Char
deriving DecidableEq

/-- Source: app.py line 130, `message.author.display_name or message.author.name`
    (the Python `or` falls back when the display name is falsy). -/
def username (m : Message) : List Char :=
  if m.display_name.isEmpty then m.name else m.display_name

/-- Source: app.py line 134: a message survives filtering when its stripped
    content is non-empty and has length at most 500. -/
def keep (m : Message) : Bool :=
  !(pyStrip m.content).isEmpty && decide ((pyStrip m.content).length ≤ 500)

/-- The line emitted for a surviving message (without the trailing newline):
    `username: sanitized-content` (app.py line 137). -/
def lineOf (m : Message) : List Char :=
  username m ++ ':' :: ' ' :: sanitize (pyStrip m.content)

/-- The exact string appended for a surviving message (app.py line 137),
    which ends with a newline character. -/
def entryOf (m : Message) : List Char :=
  lineOf m ++ ['\n']

/-- Source: app.py lines 128-137, the transcript-building loop: starting from
    the empty string, append `entryOf m` for every surviving message. -/
def buildString (msgs : List Message) : List Char :=
  msgs.foldl (fun acc m => if keep m then acc ++ entryOf m else acc) []

/-- Recursive restatement of the loop used by the proofs below. -/
def flattenEntries : List Message → List Char
  | [] => []
  | m :: ms => (if keep m then entryOf m else []) ++ flattenEntries ms

/-- Concatenation of a list of strings. -/
def joinList : List (List Char) → List Char
  | [] => []
  | x :: xs => x ++ joinList xs

/-- Source: app.py lines 124-139: the fetched messages arrive newest first, are
    reversed to chronological order, turned into lines, and the trailing
    newlines are stripped. -/
def transcriptOf (fetched : List Message) : List Char :=
  rstripNewlines (buildString fetched.reverse)

/-- Source: app.py line 51, the fixed truncation marker. -/
def truncMarker : List Char := "\n\n*[Response truncated]*".toList

/-- Source: app.py line 56, the generic analysis-failure message returned by
    process_schedule_request when the chain invocation raises. -/
def analysisErrorMsg : List Char :=
  "⚠️ Sorry, I encountered an error while analyzing the conversation. Please try again later.".toList

/-- Source: app.py line 98 (and 83). -/
def usageMsg : List Char := "❌ Usage: `!schedule meet`".toList

/-- Source: app.py line 117. -/
def fetchTimeoutMsg : List Char := "⏰ Timeout while fetching messages. Please try again.".toList

/-- Source: app.py line 121. -/
def noMessagesMsg : List Char := "❌ No messages found in this channel.".toList

/-- Source: app.py line 142. -/
def noValidMsg : List Char := "❌ No valid messages found to process.".toList

/-- Source: app.py line 160 (the apostrophe is spliced in as a character). -/
def emptyResponseMsg : List Char :=
  "⚠️ I couldn".toList ++ '\'' :: "t generate a response. Please try again.".toList

/-- Source: app.py line 88. -/
def unexpectedMsg : List Char := "❌ An unexpected error occurred. The issue has been logged.".toList

/-- Source: app.py lines 36-56. The external chain is passed in as a function
    from the transcript to its outcome: success with a response string, or an
    exception carrying a message. The body mirrors the Python exactly: invoke
    the chain once (no retry), clamp over-long responses, and turn any raised
    exception into the generic analysis-failure message. -/
def process_schedule_request (chain : List Char → Except (List Char) (List Char))
    (messages_string : List Char) : List Char :=
  match chain messages_string with
  | Except.ok response =>
    if MAX_MESSAGE_LENGTH < response.length then
      response.take (MAX_MESSAGE_LENGTH - 50) ++ truncMarker
    else
      response
  | Except.error _ => analysisErrorMsg

/-- Outcome of the bounded history fetch (app.py lines 107-118). -/
inductive FetchResult where
  | timeout
  | ok (msgs : List Message)

/-- Observable outcome of one run of the schedule_meet handler body:
    the single reply text it sends, how many times the chain was invoked
    (0 or 1; the code has no retry loop), and whether a history fetch was
    performed. -/
structure StepResult where
  reply : List Char
  modelCalls : Nat
  fetched : Bool
deriving DecidableEq

/-- Source: app.py lines 90-160, the body of the schedule command handler
    (after the cooldown check): validate the sub-action, fetch history,
    handle the empty and all-filtered cases, run the chain, and send either
    the response or a fallback. The try/except around
    process_schedule_request (lines 149-154) has no branch here because the
    embedded function is total. -/
def schedule_meet (chain : List Char → Except (List Char) (List Char))
    (action : Option String) (fetch : FetchResult) : StepResult :=
  if action ≠ some "meet" then ⟨usageMsg, 0, false⟩
  else
    match fetch with
    | FetchResult.timeout => ⟨fetchTimeoutMsg, 0, true⟩
    | FetchResult.ok messages =>
      if messages.isEmpty then ⟨noMessagesMsg, 0, true⟩
      else
        if (transcriptOf messages).isEmpty then ⟨noValidMsg, 0, true⟩
        else
          if !(process_schedule_request chain (transcriptOf messages)).isEmpty then
            ⟨process_schedule_request chain (transcriptOf messages), 1, true⟩
          else ⟨emptyResponseMsg, 1, true⟩

/-- One-decimal rendering of a non-negative rational, an executable stand-in
    for the Python float format spec with one digit after the point used at
    app.py line 85 (Python rounds the float; the claims only depend on which
    number is rendered, not on the rounding mode). -/
def ratToDecimal1 (r : ℚ) : List Char :=
  (Nat.repr ((Rat.floor (10 * r)).toNat / 10)).toList ++
    '.' :: (Nat.repr ((Rat.floor (10 * r)).toNat % 10)).toList

/-- Source: app.py line 85, the cooldown reply naming the remaining wait. -/
def cooldownText (r : ℚ) : List Char :=
  "⏰ Please wait ".toList ++ ratToDecimal1 r ++
    " seconds before using this command again.".toList

/-- The command-framework errors handled by app.py lines 77-88. -/
inductive CommandError where
  | commandNotFound
  | missingRequiredArgument
  | commandOnCooldown (retry_after : ℚ)
  | other

/-- Source: app.py lines 77-88: the global command error handler; `none`
    means no message is sent (unknown commands are ignored). -/
def on_command_error : CommandError → Option (List Char)
  | CommandError.commandNotFound => none
  | CommandError.missingRequiredArgument => some usageMsg
  | CommandError.commandOnCooldown r => some (cooldownText r)
  | CommandError.other => some unexpectedMsg

/-- Result of dispatching one schedule command invocation: either the cooldown
    rejected it (carrying retry_after, handed to on_command_error), or the
    handler body ran. -/
inductive DispatchResult where
  | cooldown (retry_after : ℚ)
  | ran (result : StepResult)

/-- Whether a history fetch happened during the dispatched invocation. -/
def DispatchResult.didFetch : DispatchResult → Bool
  | DispatchResult.cooldown _ => false
  | DispatchResult.ran r => r.fetched

/-- Modelled from the spec: the per-channel cooldown around schedule_meet
    (app.py line 91 configures one use per 10 seconds per channel, but the
    bucket mechanics live in the command framework, outside src/). Following
    spec sections 5 and 6.2: the shared state is the timestamp of the last
    accepted use in the channel; a request arriving within 10 seconds of it is
    rejected immediately with the remaining wait, otherwise the handler body
    runs and the timestamp is updated. Returns the outcome and the new state. -/
def dispatch_schedule (chain : List Char → Except (List Char) (List Char))
    (action : Option String) (fetch : FetchResult)
    (lastUse : Option ℚ) (now : ℚ) : DispatchResult × Option ℚ :=
  match lastUse with
  | some t1 =>
    if now - t1 < 10 then (DispatchResult.cooldown (10 - (now - t1)), some t1)
    else (DispatchResult.ran (schedule_meet chain action fetch), some now)
  | none => (DispatchResult.ran (schedule_meet chain action fetch), some now)

example : patE = "@everyone".toList := by decide

example : repE = "@\u200Beveryone".toList := by decide

example : patH = "@here".toList := by decide

example : repH = "@\u200Bhere".toList := by decide

example : sanitize "hi @everyone and @here".toList = "hi @\u200Beveryone and @\u200Bhere".toList := by
  decide

example : pyStrip "  hi there ".toList = "hi there".toList := by decide

example :
    transcriptOf [⟨"b".toList, "b".toList, "later".toList⟩,
      ⟨"a".toList, "a".toList, " hello ".toList⟩] = "a: hello\nb: later".toList := by
  decide

theorem isPrefixOf_eq {l₁ l₂ : List Char} : l₁.isPrefixOf l₂ = true ↔ l₁ <+: l₂ := by
  exact List.isPrefixOf_iff_prefix

theorem hasSubstr_nil (pat : List Char) : hasSubstr pat [] = pat.isEmpty := rfl

theorem hasSubstr_cons (pat : List Char) (c : Char) (cs : List Char) :
    hasSubstr pat (c :: cs) = (pat.isPrefixOf (c :: cs) || hasSubstr pat cs) := rfl

theorem hasSubstr_iff (pat s : List Char) : hasSubstr pat s = true ↔ pat <:+: s := by
  induction s with
  | nil =>
    rw [hasSubstr_nil, List.infix_nil, List.isEmpty_iff]
  | cons c cs ih =>
    rw [hasSubstr_cons, Bool.or_eq_true, isPrefixOf_eq, ih, List.infix_cons_iff]

theorem isPrefixOf_append_sep (pat : List Char) (sep : Char) (hsep : sep ∉ pat)
    (a b : List Char) : pat.isPrefixOf (a ++ sep :: b) = pat.isPrefixOf a := by
  induction pat generalizing a with
  | nil => simp
  | cons p ps ih =>
    have hp : (p == sep) = false := beq_eq_false_iff_ne.mpr (fun h => hsep (by simp [h]))
    have hps : sep ∉ ps := fun h => hsep (List.mem_cons_of_mem _ h)
    cases a with
    | nil =>
      show (p :: ps).isPrefixOf (sep :: b) = false
      simp [List.isPrefixOf, hp]
    | cons c a' =>
      show (p :: ps).isPrefixOf (c :: (a' ++ sep :: b)) = (p :: ps).isPrefixOf (c :: a')
      simp only [List.isPrefixOf]
      rw [ih hps a']

theorem hasSubstr_append_sep (pat : List Char) (hpat : pat ≠ []) (sep : Char)
    (hsep : sep ∉ pat) (a b : List Char) :
    hasSubstr pat (a ++ sep :: b) = (hasSubstr pat a || hasSubstr pat b) := by
  induction a with
  | nil =>
    show hasSubstr pat (sep :: b) = (hasSubstr pat [] || hasSubstr pat b)
    rw [hasSubstr_cons]
    have h1 : pat.isPrefixOf (sep :: b) = pat.isPrefixOf [] := by
      have := isPrefixOf_append_sep pat sep hsep [] b
      simpa using this
    rw [h1]
    cases pat with
    | nil => exact absurd rfl hpat
    | cons p ps => rfl
  | cons c a' ih =>
    show hasSubstr pat ((c :: a') ++ sep :: b) = (hasSubstr pat (c :: a') || hasSubstr pat b)
    simp only [List.cons_append]
    rw [hasSubstr_cons, ih]
    have h2 := isPrefixOf_append_sep pat sep hsep (c :: a') b
    simp only [List.cons_append] at h2
    rw [h2, hasSubstr_cons, Bool.or_assoc]

theorem hasSubstr_cons_sep (pat : List Char) (hpat : pat ≠ []) (sep : Char)
    (hsep : sep ∉ pat) (b : List Char) :
    hasSubstr pat (sep :: b) = hasSubstr pat b := by
  have := hasSubstr_append_sep pat hpat sep hsep [] b
  simp only [List.nil_append] at this
  rw [this]
  cases pat with
  | nil => exact absurd rfl hpat
  | cons p ps => rfl

theorem pyReplaceGo_isPrefixOf (p : Char) (ps rep : List Char)
    (hrep : ∃ r, rep = p :: r) :
    ∀ (fuel : Nat) (u w : List Char), p ∉ w →
    w.isPrefixOf (pyReplaceGo p ps rep fuel u) = w.isPrefixOf u := by
  obtain ⟨rep', hr⟩ := hrep
  subst hr
  intro fuel
  induction fuel with
  | zero => intro u w _; rfl
  | succ fuel ih =>
    intro u w hw
    cases u with
    | nil => rfl
    | cons c cs =>
      cases h : (p :: ps).isPrefixOf (c :: cs) with
      | true =>
        have hgo : pyReplaceGo p ps (p :: rep') (fuel + 1) (c :: cs) =
            (p :: rep') ++ pyReplaceGo p ps (p :: rep') fuel (cs.drop ps.length) := by
          simp [pyReplaceGo, h]
        have h' := h
        simp only [List.isPrefixOf, Bool.and_eq_true, beq_iff_eq] at h'
        obtain ⟨hpc, -⟩ := h'
        subst hpc
        rw [hgo]
        cases w with
        | nil => simp
        | cons a w' =>
          have ha : (a == p) = false :=
            beq_eq_false_iff_ne.mpr (fun hh => hw (by simp [hh]))
          simp only [List.cons_append, List.isPrefixOf, ha, Bool.false_and]
      | false =>
        have hgo : pyReplaceGo p ps (p :: rep') (fuel + 1) (c :: cs) =
            c :: pyReplaceGo p ps (p :: rep') fuel cs := by
          simp [pyReplaceGo, h]
        rw [hgo]
        cases w with
        | nil => simp
        | cons a w' =>
          have hw' : p ∉ w' := fun hh => hw (List.mem_cons_of_mem _ hh)
          simp only [List.isPrefixOf]
          rw [ih cs w' hw']

theorem pyReplaceGo_elim (p : Char) (ps rep : List Char)
    (hrep : ∃ r, rep = p :: r) (hps : p ∉ ps)
    (hb : ∀ t, hasSubstr (p :: ps) (rep ++ t) = hasSubstr (p :: ps) t) :
    ∀ (fuel : Nat) (u : List Char), u.length ≤ fuel →
    hasSubstr (p :: ps) (pyReplaceGo p ps rep fuel u) = false := by
  intro fuel
  induction fuel with
  | zero =>
    intro u hu
    have h0 : u = [] := List.length_eq_zero.mp (Nat.le_zero.mp hu)
    subst h0
    rfl
  | succ fuel ih =>
    intro u hu
    cases u with
    | nil => rfl
    | cons c cs =>
      have hcs : cs.length ≤ fuel := by
        simp only [List.length_cons] at hu
        omega
      cases h : (p :: ps).isPrefixOf (c :: cs) with
      | true =>
        have hgo : pyReplaceGo p ps rep (fuel + 1) (c :: cs) =
            rep ++ pyReplaceGo p ps rep fuel (cs.drop ps.length) := by
          simp [pyReplaceGo, h]
        rw [hgo, hb]
        apply ih
        have : (cs.drop ps.length).length = cs.length - ps.length := List.length_drop _ _
        omega
      | false =>
        have hgo : pyReplaceGo p ps rep (fuel + 1) (c :: cs) =
            c :: pyReplaceGo p ps rep fuel cs := by
          simp [pyReplaceGo, h]
        rw [hgo, hasSubstr_cons, ih cs hcs]
        have h3 : (p :: ps).isPrefixOf (c :: pyReplaceGo p ps rep fuel cs) =
            (p :: ps).isPrefixOf (c :: cs) := by
          simp only [List.isPrefixOf]
          rw [pyReplaceGo_isPrefixOf p ps rep hrep fuel cs ps hps]
        rw [h3, h]
        rfl

theorem hasSubstr_patE_repE (t : List Char) :
    hasSubstr patE (repE ++ t) = hasSubstr patE t := rfl

theorem hasSubstr_patH_repH (t : List Char) :
    hasSubstr patH (repH ++ t) = hasSubstr patH t := rfl

theorem hasSubstr_patE_repH (t : List Char) :
    hasSubstr patE (repH ++ t) = hasSubstr patE t := rfl

theorem hasSubstr_patE_patH (t : List Char) :
    hasSubstr patE (('@' :: psH) ++ t) = hasSubstr patE t := rfl

theorem pyReplaceGo_patE_preserved :
    ∀ (fuel : Nat) (u : List Char),
    hasSubstr patE (pyReplaceGo '@' psH repH fuel u) = hasSubstr patE u := by
  intro fuel
  induction fuel with
  | zero => intro u; rfl
  | succ fuel ih =>
    intro u
    cases u with
    | nil => rfl
    | cons c cs =>
      cases h : ('@' :: psH).isPrefixOf (c :: cs) with
      | true =>
        have hpre : ('@' :: psH) <+: (c :: cs) := isPrefixOf_eq.mp h
        obtain ⟨rest, hrest⟩ := hpre
        have hgo : pyReplaceGo '@' psH repH (fuel + 1) (c :: cs) =
            repH ++ pyReplaceGo '@' psH repH fuel (cs.drop psH.length) := by
          simp [pyReplaceGo, h]
        have hrest' : '@' :: (psH ++ rest) = c :: cs := by
          simpa [List.cons_append] using hrest
        have hdrop : cs.drop psH.length = rest := by
          have h2 : psH ++ rest = cs := (List.cons.injEq _ _ _ _ ▸ hrest').2
          rw [← h2, List.drop_left]
        rw [hgo, hasSubstr_patE_repH, ih, hdrop, ← hrest, hasSubstr_patE_patH]
      | false =>
        have hgo : pyReplaceGo '@' psH repH (fuel + 1) (c :: cs) =
            c :: pyReplaceGo '@' psH repH fuel cs := by
          simp [pyReplaceGo, h]
        rw [hgo, hasSubstr_cons, hasSubstr_cons, ih]
        have h3 : patE.isPrefixOf (c :: pyReplaceGo '@' psH repH fuel cs) =
            patE.isPrefixOf (c :: cs) := by
          show ('@' :: psE).isPrefixOf _ = ('@' :: psE).isPrefixOf _
          simp only [List.isPrefixOf]
          rw [pyReplaceGo_isPrefixOf '@' psH repH ⟨'\u200B' :: psH, rfl⟩ fuel cs psE (by decide)]
        rw [h3]

theorem sanitize_no_patE (c : List Char) : hasSubstr patE (sanitize c) = false := by
  unfold sanitize pyReplace
  rw [pyReplaceGo_patE_preserved]
  exact pyReplaceGo_elim '@' psE repE ⟨'\u200B' :: psE, rfl⟩ (by decide)
    hasSubstr_patE_repE c.length c (le_refl _)

theorem sanitize_no_patH (c : List Char) : hasSubstr patH (sanitize c) = false := by
  unfold sanitize pyReplace
  exact pyReplaceGo_elim '@' psH repH ⟨'\u200B' :: psH, rfl⟩ (by decide)
    hasSubstr_patH_repH _ _ (le_refl _)

theorem hasSubstr_entry (pat : List Char) (hpat : pat ≠ []) (h1 : ':' ∉ pat)
    (h2 : ' ' ∉ pat) (h3 : '\n' ∉ pat) (m : Message) (rest : List Char) :
    hasSubstr pat (entryOf m ++ rest) =
      ((hasSubstr pat (username m) ||
        hasSubstr pat (sanitize (pyStrip m.content))) || hasSubstr pat rest) := by
  have e1 : entryOf m ++ rest =
      username m ++ ':' :: (' ' :: (sanitize (pyStrip m.content) ++ '\n' :: rest)) := by
    simp [entryOf, lineOf]
  rw [e1, hasSubstr_append_sep pat hpat ':' h1, hasSubstr_cons_sep pat hpat ' ' h2,
    hasSubstr_append_sep pat hpat '\n' h3, Bool.or_assoc]

theorem flatten_no_token (pat : List Char) (hpat : pat ≠ []) (h1 : ':' ∉ pat)
    (h2 : ' ' ∉ pat) (h3 : '\n' ∉ pat)
    (hsan : ∀ c, hasSubstr pat (sanitize c) = false) :
    ∀ msgs : List Message, (∀ m ∈ msgs, hasSubstr pat (username m) = false) →
    hasSubstr pat (flattenEntries msgs) = false := by
  intro msgs
  induction msgs with
  | nil =>
    intro _
    cases pat with
    | nil => exact absurd rfl hpat
    | cons p ps => rfl
  | cons m ms ih =>
    intro hall
    show hasSubstr pat ((if keep m then entryOf m else []) ++ flattenEntries ms) = false
    by_cases hk : keep m = true
    · rw [if_pos hk, hasSubstr_entry pat hpat h1 h2 h3 m _]
      rw [hall m (by simp), hsan, ih (fun x hx => hall x (List.mem_cons_of_mem _ hx))]
      rfl
    · rw [if_neg hk, List.nil_append]
      exact ih (fun x hx => hall x (List.mem_cons_of_mem _ hx))

theorem rstripNewlines_pre (s : List Char) : rstripNewlines s <+: s := by
  unfold rstripNewlines
  have h3 : s.reverse.dropWhile (fun c => c == '\n') <:+ s.reverse :=
    List.dropWhile_suffix _
  have h4 := List.reverse_prefix.mpr h3
  rwa [List.reverse_reverse] at h4

theorem hasSubstr_rstrip (pat s : List Char) (h : hasSubstr pat s = false) :
    hasSubstr pat (rstripNewlines s) = false := by
  cases hh : hasSubstr pat (rstripNewlines s) with
  | false => rfl
  | true =>
    exfalso
    have hin : pat <:+: s :=
      ((hasSubstr_iff pat _).mp hh).trans (rstripNewlines_pre s).isInfix
    exact absurd ((hasSubstr_iff pat s).mpr hin) (by simp [h])

theorem buildString_eq (msgs : List Message) : buildString msgs = flattenEntries msgs := by
  have aux : ∀ (ms : List Message) (acc : List Char),
      ms.foldl (fun acc m => if keep m then acc ++ entryOf m else acc) acc =
        acc ++ flattenEntries ms := by
    intro ms
    induction ms with
    | nil => intro acc; simp [flattenEntries]
    | cons m ms ih =>
      intro acc
      rw [List.foldl_cons, ih]
      by_cases hk : keep m = true
      · simp [flattenEntries, hk, List.append_assoc]
      · simp [flattenEntries, hk]
  simpa using aux msgs []

theorem transcript_no_patE (fetched : List Message)
    (h : ∀ m ∈ fetched, hasSubstr patE (username m) = false) :
    hasSubstr patE (transcriptOf fetched) = false := by
  unfold transcriptOf
  apply hasSubstr_rstrip
  rw [buildString_eq]
  exact flatten_no_token patE (by decide) (by decide) (by decide) (by decide)
    sanitize_no_patE fetched.reverse (fun m hm => h m (List.mem_reverse.mp hm))

theorem transcript_no_patH (fetched : List Message)
    (h : ∀ m ∈ fetched, hasSubstr patH (username m) = false) :
    hasSubstr patH (transcriptOf fetched) = false := by
  unfold transcriptOf
  apply hasSubstr_rstrip
  rw [buildString_eq]
  exact flatten_no_token patH (by decide) (by decide) (by decide) (by decide)
    sanitize_no_patH fetched.reverse (fun m hm => h m (List.mem_reverse.mp hm))

theorem keep_iff (m : Message) :
    keep m = true ↔ pyStrip m.content ≠ [] ∧ (pyStrip m.content).length ≤ 500 := by
  simp [keep, List.isEmpty_iff]

theorem flattenEntries_join (msgs : List Message) :
    flattenEntries msgs = joinList ((msgs.filter keep).map entryOf) := by
  induction msgs with
  | nil => rfl
  | cons m ms ih =>
    show (if keep m then entryOf m else []) ++ flattenEntries ms = _
    by_cases hk : keep m = true
    · simp [List.filter_cons, hk, joinList, ih]
    · simp [List.filter_cons, hk, ih]

theorem flattenEntries_all_skip (msgs : List Message)
    (h : ∀ m ∈ msgs, keep m = false) : flattenEntries msgs = [] := by
  induction msgs with
  | nil => rfl
  | cons m ms ih =>
    show (if keep m then entryOf m else []) ++ flattenEntries ms = []
    have hk : keep m = false := h m (by simp)
    rw [if_neg (by simp [hk]), List.nil_append]
    exact ih (fun x hx => h x (List.mem_cons_of_mem _ hx))

theorem transcript_empty (msgs : List Message)
    (h : ∀ m ∈ msgs, keep m = false) : transcriptOf msgs = [] := by
  unfold transcriptOf
  rw [buildString_eq, flattenEntries_all_skip msgs.reverse
    (fun x hx => h x (List.mem_reverse.mp hx))]
  rfl

theorem process_eq_error (chain : List Char → Except (List Char) (List Char))
    (s e : List Char) (hc : chain s = Except.error e) :
    process_schedule_request chain s = analysisErrorMsg := by
  unfold process_schedule_request
  rw [hc]

theorem process_eq_ok (chain : List Char → Except (List Char) (List Char))
    (s r : List Char) (hc : chain s = Except.ok r) :
    process_schedule_request chain s =
      if MAX_MESSAGE_LENGTH < r.length then
        r.take (MAX_MESSAGE_LENGTH - 50) ++ truncMarker
      else r := by
  unfold process_schedule_request
  rw [hc]

theorem process_length (chain : List Char → Except (List Char) (List Char))
    (s : List Char) :
    (process_schedule_request chain s).length ≤ MAX_MESSAGE_LENGTH := by
  cases hc : chain s with
  | error e =>
    rw [process_eq_error chain s e hc]
    decide
  | ok r =>
    rw [process_eq_ok chain s r hc]
    by_cases h : MAX_MESSAGE_LENGTH < r.length
    · rw [if_pos h]
      rw [List.length_append, List.length_take]
      have hm : truncMarker.length = 24 := by decide
      rw [hm]
      simp only [MAX_MESSAGE_LENGTH] at h ⊢
      omega
    · rw [if_neg h]
      omega

/-- Claim C1, counterexample: the transcript builder sanitizes only message
    content, not author names, so a message whose author display name is the
    literal token makes the built transcript contain a raw, unmodified
    occurrence of the mass-mention trigger token. -/
theorem claim1_counterexample :
    patE <:+: transcriptOf [⟨"@everyone".toList, "x".toList, "hi".toList⟩] := by
  decide

/-- Claim C1, amended: for every list of fetched messages whose author
    usernames contain no raw mass-mention trigger token, the built transcript
    contains zero unmodified occurrences of the raw trigger tokens: every
    occurrence inside a message content is neutralized before the transcript
    is assembled. -/
theorem claim1_amended_no_raw_mass_mentions (fetched : List Message)
    (h : ∀ m ∈ fetched, ¬ patE <:+: username m ∧ ¬ patH <:+: username m) :
    ¬ patE <:+: transcriptOf fetched ∧ ¬ patH <:+: transcriptOf fetched := by
  have hE : ∀ m ∈ fetched, hasSubstr patE (username m) = false := by
    intro m hm
    cases hx : hasSubstr patE (username m) with
    | false => rfl
    | true => exact absurd ((hasSubstr_iff _ _).mp hx) (h m hm).1
  have hH : ∀ m ∈ fetched, hasSubstr patH (username m) = false := by
    intro m hm
    cases hx : hasSubstr patH (username m) with
    | false => rfl
    | true => exact absurd ((hasSubstr_iff _ _).mp hx) (h m hm).2
  constructor
  · intro hin
    exact absurd ((hasSubstr_iff _ _).mpr hin) (by simp [transcript_no_patE fetched hE])
  · intro hin
    exact absurd ((hasSubstr_iff _ _).mpr hin) (by simp [transcript_no_patH fetched hH])

/-- Witness for the amended claim C1 at a concrete message list. -/
theorem claim1_witness :
    (∀ m ∈ [(⟨"alice".toList, "alice".toList, "meet @everyone at 5 @here".toList⟩ : Message)],
        ¬ patE <:+: username m ∧ ¬ patH <:+: username m) ∧
    (¬ patE <:+: transcriptOf
        [⟨"alice".toList, "alice".toList, "meet @everyone at 5 @here".toList⟩] ∧
     ¬ patH <:+: transcriptOf
        [⟨"alice".toList, "alice".toList, "meet @everyone at 5 @here".toList⟩]) :=
  ⟨by decide, claim1_amended_no_raw_mass_mentions _ (by decide)⟩

/-- Claim C2: a successful recommendation longer than 2000 units is replaced
    by exactly its first 1950 units followed by the fixed truncation marker;
    a recommendation of length at most 2000 is returned unchanged. -/
theorem claim2_truncation (chain : List Char → Except (List Char) (List Char))
    (s r : List Char) (hok : chain s = Except.ok r) :
    (MAX_MESSAGE_LENGTH < r.length →
      (r.take (MAX_MESSAGE_LENGTH - 50)).length = 1950 ∧
      process_schedule_request chain s = r.take (MAX_MESSAGE_LENGTH - 50) ++ truncMarker) ∧
    (r.length ≤ MAX_MESSAGE_LENGTH → process_schedule_request chain s = r) := by
  rw [process_eq_ok chain s r hok]
  constructor
  · intro h
    rw [if_pos h]
    refine ⟨?_, rfl⟩
    rw [List.length_take]
    simp only [MAX_MESSAGE_LENGTH] at h ⊢
    omega
  · intro h
    rw [if_neg (by omega)]

/-- Witness for claim C2: a 2001-character response is truncated, a short
    response is passed through. -/
theorem claim2_witness :
    (MAX_MESSAGE_LENGTH < (List.replicate 2001 'a').length ∧
      process_schedule_request (fun _ => Except.ok (List.replicate 2001 'a')) [] =
        (List.replicate 2001 'a').take (MAX_MESSAGE_LENGTH - 50) ++ truncMarker) ∧
    ("ok".toList.length ≤ MAX_MESSAGE_LENGTH ∧
      process_schedule_request (fun _ => Except.ok "ok".toList) [] = "ok".toList) := by
  constructor
  · constructor
    · simp [MAX_MESSAGE_LENGTH]
    · have h := ((claim2_truncation (fun _ => Except.ok (List.replicate 2001 'a')) []
        (List.replicate 2001 'a') rfl).1 (by simp [MAX_MESSAGE_LENGTH])).2
      exact h
  · constructor
    · decide
    · have h := (claim2_truncation (fun _ => Except.ok "ok".toList) []
        "ok".toList rfl).2 (by decide)
      exact h

theorem schedule_meet_timeout (chain : List Char → Except (List Char) (List Char))
    (action : Option String) (ha : ¬ action ≠ some "meet") :
    schedule_meet chain action FetchResult.timeout = ⟨fetchTimeoutMsg, 0, true⟩ := by
  unfold schedule_meet
  rw [if_neg ha]

theorem schedule_meet_ok (chain : List Char → Except (List Char) (List Char))
    (action : Option String) (msgs : List Message) (ha : ¬ action ≠ some "meet") :
    schedule_meet chain action (FetchResult.ok msgs) =
      (if msgs.isEmpty = true then ⟨noMessagesMsg, 0, true⟩
       else if (transcriptOf msgs).isEmpty = true then ⟨noValidMsg, 0, true⟩
       else if (!(process_schedule_request chain (transcriptOf msgs)).isEmpty) = true then
         ⟨process_schedule_request chain (transcriptOf msgs), 1, true⟩
       else ⟨emptyResponseMsg, 1, true⟩) := by
  unfold schedule_meet
  rw [if_neg ha]

/-- Claim C3: whatever the chain returns (any length, or an exception), and on
    every other branch of the handler, the reply text that is posted has
    length at most the hard limit of 2000 units. -/
theorem claim3_reply_within_limit (chain : List Char → Except (List Char) (List Char))
    (action : Option String) (fetch : FetchResult) :
    (schedule_meet chain action fetch).reply.length ≤ MAX_MESSAGE_LENGTH := by
  by_cases ha : action ≠ some "meet"
  · unfold schedule_meet
    rw [if_pos ha]
    decide
  · cases fetch with
    | timeout =>
      rw [schedule_meet_timeout chain action ha]
      decide
    | ok messages =>
      rw [schedule_meet_ok chain action messages ha]
      by_cases h1 : messages.isEmpty = true
      · rw [if_pos h1]
        decide
      · rw [if_neg h1]
        by_cases h2 : (transcriptOf messages).isEmpty = true
        · rw [if_pos h2]
          decide
        · rw [if_neg h2]
          by_cases h3 : (!(process_schedule_request chain (transcriptOf messages)).isEmpty) = true
          · rw [if_pos h3]
            exact process_length chain (transcriptOf messages)
          · rw [if_neg h3]
            decide

/-- Claim C4, counterexample: the 500-unit bound is checked before
    neutralization, and neutralization lengthens the content, so a kept line
    can carry content longer than 500 units (here 501). -/
theorem claim4_counterexample :
    500 < (sanitize (pyStrip ("@here".toList ++ List.replicate 495 'a'))).length ∧
    transcriptOf [⟨"u".toList, "u".toList, "@here".toList ++ List.replicate 495 'a'⟩] =
      "u: ".toList ++ sanitize (pyStrip ("@here".toList ++ List.replicate 495 'a')) := by
  decide

/-- Claim C4, amended: the transcript is assembled from exactly the kept
    messages, in chronological (reversed-fetch) order, so it has at most N
    lines; every kept message has non-empty trimmed content of length at most
    500 before neutralization (neutralization may lengthen a line beyond
    500, as the counterexample shows). -/
theorem claim4_amended_transcript_shape (fetched : List Message) :
    transcriptOf fetched = rstripNewlines (flattenEntries fetched.reverse) ∧
    flattenEntries fetched.reverse =
      joinList ((fetched.reverse.filter keep).map entryOf) ∧
    (fetched.reverse.filter keep).length ≤ fetched.length ∧
    List.Sublist (fetched.reverse.filter keep) fetched.reverse ∧
    (∀ m ∈ fetched.reverse.filter keep,
      pyStrip m.content ≠ [] ∧ (pyStrip m.content).length ≤ 500) := by
  refine ⟨?_, flattenEntries_join _, ?_, List.filter_sublist _, ?_⟩
  · unfold transcriptOf
    rw [buildString_eq]
  · calc (fetched.reverse.filter keep).length ≤ fetched.reverse.length :=
          List.length_filter_le _ _
      _ = fetched.length := List.length_reverse _
  · intro m hm
    exact (keep_iff m).mp (List.mem_filter.mp hm).2

/-- Claim C5: when the history fetch returns zero messages, the handler
    replies with the no-messages-found message and never invokes the
    recommendation chain (zero model calls). -/
theorem claim5_no_messages (chain : List Char → Except (List Char) (List Char)) :
    schedule_meet chain (some "meet") (FetchResult.ok []) =
      ⟨noMessagesMsg, 0, true⟩ := by
  rw [schedule_meet_ok chain (some "meet") [] (by simp)]
  rfl

/-- Claim C6: when every fetched message is filtered out (trimmed-empty or
    longer than 500), the handler replies with the no-valid-messages message
    and never invokes the recommendation chain. -/
theorem claim6_all_filtered (chain : List Char → Except (List Char) (List Char))
    (msgs : List Message) (hne : msgs ≠ [])
    (hall : ∀ m ∈ msgs, keep m = false) :
    schedule_meet chain (some "meet") (FetchResult.ok msgs) =
      ⟨noValidMsg, 0, true⟩ := by
  have ht : transcriptOf msgs = [] := transcript_empty msgs hall
  rw [schedule_meet_ok chain (some "meet") msgs (by simp)]
  obtain ⟨m, ms, rfl⟩ : ∃ m ms, msgs = m :: ms := by
    cases msgs with
    | nil => exact absurd rfl hne
    | cons m ms => exact ⟨m, ms, rfl⟩
  rw [if_neg (by simp), if_pos (by simp [ht])]

/-- Witness for claim C6 at a concrete whitespace-only message. -/
theorem claim6_witness :
    ([(⟨"u".toList, "u".toList, "   ".toList⟩ : Message)] ≠ [] ∧
     (∀ m ∈ [(⟨"u".toList, "u".toList, "   ".toList⟩ : Message)], keep m = false)) ∧
    schedule_meet (fun _ => Except.ok []) (some "meet")
      (FetchResult.ok [⟨"u".toList, "u".toList, "   ".toList⟩]) =
      ⟨noValidMsg, 0, true⟩ :=
  ⟨⟨by decide, by decide⟩, claim6_all_filtered _ _ (by decide) (by decide)⟩

/-- Claim C7: any sub-action other than the literal meet (including an absent
    one) makes the handler reply with the usage message and return before any
    fetch or model call. -/
theorem claim7_wrong_subaction (chain : List Char → Except (List Char) (List Char))
    (action : Option String) (fetch : FetchResult)
    (h : action ≠ some "meet") :
    schedule_meet chain action fetch = ⟨usageMsg, 0, false⟩ := by
  unfold schedule_meet
  rw [if_pos h]

/-- Witness for claim C7 at the sub-action sync of the spec scenario, and at
    the absent sub-action. -/
theorem claim7_witness :
    (some "sync" ≠ some "meet" ∧
      schedule_meet (fun _ => Except.ok []) (some "sync") (FetchResult.ok []) =
        ⟨usageMsg, 0, false⟩) ∧
    ((none : Option String) ≠ some "meet" ∧
      schedule_meet (fun _ => Except.ok []) none (FetchResult.ok []) =
        ⟨usageMsg, 0, false⟩) :=
  ⟨⟨by decide, claim7_wrong_subaction _ _ _ (by decide)⟩,
   ⟨by decide, claim7_wrong_subaction _ _ _ (by decide)⟩⟩

/-- Claim C8: if the chain invocation fails for any reason, the client invokes
    it exactly once (no retries), catches the failure, returns the single
    generic analysis-failure message to the caller, and that message is the
    one reply posted for the invocation. -/
theorem claim8_chain_failure (chain : List Char → Except (List Char) (List Char))
    (msgs : List Message) (e : List Char)
    (hne : msgs ≠ []) (ht : transcriptOf msgs ≠ [])
    (herr : chain (transcriptOf msgs) = Except.error e) :
    process_schedule_request chain (transcriptOf msgs) = analysisErrorMsg ∧
    schedule_meet chain (some "meet") (FetchResult.ok msgs) =
      ⟨analysisErrorMsg, 1, true⟩ := by
  have hp : process_schedule_request chain (transcriptOf msgs) = analysisErrorMsg :=
    process_eq_error chain _ e herr
  refine ⟨hp, ?_⟩
  rw [schedule_meet_ok chain (some "meet") msgs (by simp)]
  obtain ⟨m, ms, rfl⟩ : ∃ m ms, msgs = m :: ms := by
    cases msgs with
    | nil => exact absurd rfl hne
    | cons m ms => exact ⟨m, ms, rfl⟩
  rw [if_neg (by simp), if_neg (by simp [List.isEmpty_iff, ht]), hp,
    if_pos (by decide)]

/-- Witness for claim C8 at a concrete message list and failing chain. -/
theorem claim8_witness :
    ([(⟨"u".toList, "u".toList, "hi".toList⟩ : Message)] ≠ [] ∧
     transcriptOf [(⟨"u".toList, "u".toList, "hi".toList⟩ : Message)] ≠ []) ∧
    schedule_meet (fun _ => Except.error "boom".toList) (some "meet")
      (FetchResult.ok [⟨"u".toList, "u".toList, "hi".toList⟩]) =
      ⟨analysisErrorMsg, 1, true⟩ :=
  ⟨⟨by decide, by decide⟩,
    (claim8_chain_failure (fun _ => Except.error "boom".toList) _ "boom".toList
      (by decide) (by decide) rfl).2⟩

/-- Claim C9: a second invocation in the same channel within 10 seconds of a
    first accepted invocation is rejected by the cooldown: it yields a
    cooldown outcome carrying a positive remaining wait, the error handler
    turns it into the cooldown message naming that wait, and no history fetch
    happens. The cooldown bucket itself is modelled from the spec (see
    dispatch_schedule). -/
theorem claim9_cooldown (chain chain2 : List Char → Except (List Char) (List Char))
    (action action2 : Option String) (fetch fetch2 : FetchResult) (t1 t2 : ℚ)
    (h1 : 0 ≤ t2 - t1) (h2 : t2 - t1 < 10) :
    (dispatch_schedule chain action fetch none t1).2 = some t1 ∧
    (dispatch_schedule chain2 action2 fetch2
        (dispatch_schedule chain action fetch none t1).2 t2).1 =
      DispatchResult.cooldown (10 - (t2 - t1)) ∧
    0 < 10 - (t2 - t1) ∧
    on_command_error (CommandError.commandOnCooldown (10 - (t2 - t1))) =
      some (cooldownText (10 - (t2 - t1))) ∧
    (dispatch_schedule chain2 action2 fetch2
        (dispatch_schedule chain action fetch none t1).2 t2).1.didFetch = false := by
  refine ⟨rfl, ?_, by linarith, rfl, ?_⟩
  · show (dispatch_schedule chain2 action2 fetch2 (some t1) t2).1 = _
    simp [dispatch_schedule, h2]
  · show (dispatch_schedule chain2 action2 fetch2 (some t1) t2).1.didFetch = false
    simp [dispatch_schedule, h2, DispatchResult.didFetch]

/-- Witness for claim C9: first call at time 0, second call at time 3. -/
theorem claim9_witness :
    (dispatch_schedule (fun _ => Except.ok []) (some "meet") (FetchResult.ok [])
        (dispatch_schedule (fun _ => Except.ok []) (some "meet") (FetchResult.ok [])
          none 0).2 3).1 =
      DispatchResult.cooldown (10 - ((3 : ℚ) - 0)) ∧
    (0 : ℚ) < 10 - ((3 : ℚ) - 0) :=
  ⟨(claim9_cooldown (fun _ => Except.ok []) (fun _ => Except.ok []) (some "meet")
      (some "meet") (FetchResult.ok []) (FetchResult.ok []) 0 3
      (by norm_num) (by norm_num)).2.1,
   (claim9_cooldown (fun _ => Except.ok []) (fun _ => Except.ok []) (some "meet")
      (some "meet") (FetchResult.ok []) (FetchResult.ok []) 0 3
      (by norm_num) (by norm_num)).2.2.1⟩

/-- Claim C10, counterexample: when the chain succeeds with the empty string,
    process_schedule_request returns the empty string, so it does not return a
    non-empty string for every outcome; the handler then takes its posted-text
    fallback branch, which the claim calls unreachable on the success path. -/
theorem claim10_counterexample :
    process_schedule_request (fun _ => Except.ok []) "hi".toList = [] := rfl

/-- Claim C10, amended: process_schedule_request is total and its result is
    empty exactly when the chain succeeds with the empty string; the separate
    exception branch of the caller is unreachable (the embedded function is
    total), and on a nonempty transcript an empty chain result leads to the
    could-not-generate fallback reply after exactly one model call. -/
theorem claim10_totality (chain : List Char → Except (List Char) (List Char))
    (s : List Char) :
    (process_schedule_request chain s = [] ↔ chain s = Except.ok []) ∧
    (∀ msgs : List Message, msgs ≠ [] → transcriptOf msgs ≠ [] →
      chain (transcriptOf msgs) = Except.ok [] →
      schedule_meet chain (some "meet") (FetchResult.ok msgs) =
        ⟨emptyResponseMsg, 1, true⟩) := by
  constructor
  · cases hc : chain s with
    | error e =>
      rw [process_eq_error chain s e hc]
      constructor
      · intro h
        exact absurd h (by decide)
      · intro h
        exact absurd h (by simp)
    | ok r =>
      rw [process_eq_ok chain s r hc]
      by_cases h : MAX_MESSAGE_LENGTH < r.length
      · rw [if_pos h]
        constructor
        · intro hx
          exfalso
          have h0 : (r.take (MAX_MESSAGE_LENGTH - 50) ++ truncMarker).length = 0 := by
            rw [hx]
            rfl
          rw [List.length_append] at h0
          have ht : truncMarker.length = 24 := by decide
          omega
        · intro hx
          have hr : r = [] := by simpa using hx
          subst hr
          simp [MAX_MESSAGE_LENGTH] at h
      · rw [if_neg h]
        simp
  · intro msgs hne ht hchain
    have hp : process_schedule_request chain (transcriptOf msgs) = [] := by
      rw [process_eq_ok chain _ [] hchain]
      rfl
    rw [schedule_meet_ok chain (some "meet") msgs (by simp)]
    obtain ⟨m, ms, rfl⟩ : ∃ m ms, msgs = m :: ms := by
      cases msgs with
      | nil => exact absurd rfl hne
      | cons m ms => exact ⟨m, ms, rfl⟩
    rw [if_neg (by simp), if_neg (by simp [List.isEmpty_iff, ht]), hp,
      if_neg (by decide)]

/-- Witness for the amended claim C10 at a chain returning the empty string. -/
theorem claim10_witness :
    (process_schedule_request (fun _ => Except.ok []) "t".toList = [] ↔
      (fun _ : List Char => (Except.ok [] : Except (List Char) (List Char))) "t".toList =
        (Except.ok [] : Except (List Char) (List Char))) ∧
    schedule_meet (fun _ => Except.ok []) (some "meet")
      (FetchResult.ok [⟨"u".toList, "u".toList, "hi".toList⟩]) =
      ⟨emptyResponseMsg, 1, true⟩ :=
  ⟨(claim10_totality (fun _ => Except.ok []) "t".toList).1,
    (claim10_totality (fun _ => Except.ok []) []).2
      [⟨"u".toList, "u".toList, "hi".toList⟩] (by decide) (by decide) rfl⟩
